import Mathlib

/-!
Verification of the dependency-aware plan executor of the `genai` repository
(`src/agent/genesis_agent.py`, with the sequential variant in
`src/agent/enhanced_genesis_agent.py`).

The embedding models:
* JSON-like Python values (`Json`),
* the reference resolver `GenesisAgent._substitute_references`,
* the dependency leveler `GenesisAgent._group_by_dependencies`
  (as a fuel-indexed loop, since the Python `while` loop need not terminate),
* the plan executor `GenesisAgent.execute_plan` / `GenesisAgent._execute_step`,
* the sequential executor `EnhancedGenesisAgent.execute_plan`,
* a small heap model of the resolver for the no-mutation claim.
-/

/-- A JSON-like Python value: the payloads that flow through plan parameters
and tool results (`json.loads` output in the source). -/
inductive Json where
  | null
  | bool (b : Bool)
  | num (n : Int)
  | str (s : String)
  | arr (elems : List Json)
  | obj (fields : List (String × Json))

/-- Python `dict.get(k)` on an association list: the first (and in a `dict`,
only) binding of `k`, or `none`. -/
def getKey? (m : List (String × Json)) (k : String) : Option Json :=
  match m with
  | [] => none
  | kv :: rest => if kv.1 = k then some kv.2 else getKey? rest k

/-- Python `d[k] = v` on an insertion-ordered `dict`: overwrite the value in
place if `k` is already bound, otherwise append the new binding. -/
def setKey (m : List (String × Json)) (k : String) (v : Json) : List (String × Json) :=
  match m with
  | [] => [(k, v)]
  | kv :: rest => if kv.1 = k then (k, v) :: rest else kv :: setKey rest k v

/-- Python `s.startswith("$")`, the reference-placeholder test of
`_substitute_references`.  Rendered through `String.take` (equivalent for a
one-character prefix) so that it evaluates in the kernel. -/
def startsWithSigil (s : String) : Bool :=
  s.take 1 == "$"

mutual

/-- The inner `substitute` closure of `GenesisAgent._substitute_references`
(src/agent/genesis_agent.py, lines 202-215): a string starting with `$` is
looked up (without the sigil) in the result map and replaced when present,
mappings and sequences are rebuilt recursively, everything else passes
through unchanged. -/
def substitute (results : List (String × Json)) : Json → Json
  | .null => .null
  | .bool b => .bool b
  | .num n => .num n
  | .str s =>
      if startsWithSigil s then (getKey? results (s.drop 1)).getD (.str s) else .str s
  | .arr elems => .arr (substituteElems results elems)
  | .obj fields => .obj (substituteFields results fields)

/-- The list comprehension branch of `substitute` for Python lists. -/
def substituteElems (results : List (String × Json)) : List Json → List Json
  | [] => []
  | x :: rest => substitute results x :: substituteElems results rest

/-- The dict comprehension branch of `substitute` for Python dicts. -/
def substituteFields (results : List (String × Json)) : List (String × Json) → List (String × Json)
  | [] => []
  | (k, v) :: rest => (k, substitute results v) :: substituteFields results rest

end

/-- `GenesisAgent._substitute_references(parameters, results)`: apply the
inner `substitute` to the whole parameter tree. -/
def substitute_references (parameters : Json) (results : List (String × Json)) : Json :=
  substitute results parameters

theorem substituteElems_eq_map (results : List (String × Json)) (elems : List Json) :
    substituteElems results elems = elems.map (substitute results) := by
  induction elems with
  | nil => simp [substituteElems]
  | cons x rest ih => simp [substituteElems, ih]

theorem substituteFields_eq_map (results : List (String × Json))
    (fields : List (String × Json)) :
    substituteFields results fields = fields.map (fun kv => (kv.1, substitute results kv.2)) := by
  induction fields with
  | nil => simp [substituteFields]
  | cons kv rest ih =>
      obtain ⟨k, v⟩ := kv
      simp [substituteFields, ih]

theorem substitute_str (results : List (String × Json)) (s : String) :
    substitute results (.str s)
      = if startsWithSigil s then (getKey? results (s.drop 1)).getD (.str s) else .str s := by
  simp [substitute]

/-- Claim C6: the reference resolver returns a structurally identical tree in
which every string scalar that starts with the sigil and whose remainder is a
key of the result map is replaced by that key's stored value; mappings and
sequences are walked recursively; all other scalars pass through unchanged;
and the spec's concrete example resolves as stated. -/
theorem substitute_references_correct :
    (∀ results s v, startsWithSigil s = true → getKey? results (s.drop 1) = some v →
        substitute_references (Json.str s) results = v)
  ∧ (∀ results s, startsWithSigil s = false →
        substitute_references (Json.str s) results = Json.str s)
  ∧ (∀ results fields,
        substitute_references (Json.obj fields) results
          = Json.obj (fields.map (fun kv => (kv.1, substitute_references kv.2 results))))
  ∧ (∀ results elems,
        substitute_references (Json.arr elems) results
          = Json.arr (elems.map (fun x => substitute_references x results)))
  ∧ (∀ results n, substitute_references (Json.num n) results = Json.num n)
  ∧ (∀ results b, substitute_references (Json.bool b) results = Json.bool b)
  ∧ (∀ results, substitute_references Json.null results = Json.null)
  ∧ substitute_references (Json.obj [("base", Json.str "$step_0")])
        [("step_0", Json.obj [("price", Json.num 100)])]
      = Json.obj [("base", Json.obj [("price", Json.num 100)])] := by
  refine ⟨?_, ?_, ?_, ?_, ?_, ?_, ?_, ?_⟩
  · intro results s v hs hget
    simp [substitute_references, substitute_str, hs, hget]
  · intro results s hs
    simp [substitute_references, substitute_str, hs]
  · intro results fields
    simp [substitute_references, substitute, substituteFields_eq_map]
  · intro results elems
    simp [substitute_references, substitute, substituteElems_eq_map]
  · intro results n; simp [substitute_references, substitute]
  · intro results b; simp [substitute_references, substitute]
  · intro results; simp [substitute_references, substitute]
  · have hs : startsWithSigil "$step_0" = true := by decide
    have hd : ("$step_0".drop 1) = "step_0" := by decide
    simp [substitute_references, substitute, substituteFields, substitute_str, hs, hd, getKey?]

/-- Witness for C6: the hit case and the non-sigil case at concrete inputs. -/
theorem substitute_references_correct_witness :
    substitute_references (Json.str "$k") [("k", Json.num 7)] = Json.num 7
  ∧ substitute_references (Json.str "plain") [("k", Json.num 7)] = Json.str "plain" := by
  constructor
  · exact substitute_references_correct.1 [("k", Json.num 7)] "$k" (Json.num 7)
      (by decide) (by rfl)
  · exact substitute_references_correct.2.1 [("k", Json.num 7)] "plain" (by decide)

/-- Claim C7: a placeholder whose key is absent from the result map is not an
error: the resolver returns the literal placeholder string unchanged, and in
particular resolving the string made of the sigil followed by `missing`
against the empty map returns it verbatim. -/
theorem substitute_references_miss :
    (∀ results s, startsWithSigil s = true → getKey? results (s.drop 1) = none →
        substitute_references (Json.str s) results = Json.str s)
  ∧ substitute_references (Json.str "$missing") [] = Json.str "$missing" := by
  constructor
  · intro results s hs hget
    simp [substitute_references, substitute_str, hs, hget]
  · have hs : startsWithSigil "$missing" = true := by decide
    simp [substitute_references, substitute_str, hs, getKey?]

/-- Witness for C7: the soft-fail case at a concrete input. -/
theorem substitute_references_miss_witness :
    substitute_references (Json.str "$absent") [("other", Json.num 1)] = Json.str "$absent" :=
  substitute_references_miss.1 [("other", Json.num 1)] "$absent" (by decide) (by rfl)

/-- One step of an execution plan (src/agent/genesis_agent.py plan format):
`tool_id`, `parameters` (may embed placeholder strings), and `depends_on`,
a list of step indices.  `depends_on` is `Int`-valued because the plan is
parsed JSON and the source never validates the indices. -/
structure PlanStep where
  tool_id : String
  parameters : Json
  depends_on : List Int

/-- Python `plan[idx]`; in every reachable call `idx` is in bounds, so the
default is irrelevant there. -/
def stepAt (plan : List PlanStep) (idx : Nat) : PlanStep :=
  plan.getD idx ⟨"", Json.null, []⟩

/-- One scan of `_group_by_dependencies`' inner `for` loop: the not yet
processed indices whose dependencies are all already processed, in input
order. -/
def currentLevel (plan : List PlanStep) (processed : Finset Int) : List Nat :=
  (List.range plan.length).filter fun idx =>
    decide ((idx : Int) ∉ processed) &&
      (stepAt plan idx).depends_on.all fun d => decide (d ∈ processed)

/-- The `while len(processed) < len(plan)` loop of
`GenesisAgent._group_by_dependencies` (src/agent/genesis_agent.py, lines
180-200), indexed by fuel: `none` means the loop is still running after
`fuel` iterations.  The loop body appends the scanned level (possibly empty)
and adds its indices to `processed`; the source has no cycle check. -/
def groupFuel (plan : List PlanStep) : Nat → Finset Int → List (List Nat) → Option (List (List Nat))
  | 0, _, _ => none
  | fuel + 1, processed, levels =>
      if processed.card < plan.length then
        let lvl := currentLevel plan processed
        groupFuel plan fuel (processed ∪ (lvl.map Int.ofNat).toFinset) (levels ++ [lvl])
      else
        some levels

/-- `GenesisAgent._group_by_dependencies` run with enough fuel for any
terminating execution: each productive iteration processes at least one new
index, and once an iteration processes none the loop can never terminate
(the scan depends only on `processed`), so `plan.length + 1` iterations are
exhaustive. -/
def group_by_dependencies (plan : List PlanStep) : Option (List (List Nat)) :=
  groupFuel plan (plan.length + 1) ∅ []

/-- The concrete two-step cyclic plan from the spec: step 0 depends on 1,
step 1 depends on 0. -/
def cyclicPlan : List PlanStep :=
  [⟨"tool_a", Json.null, [(1 : Int)]⟩, ⟨"tool_b", Json.null, [(0 : Int)]⟩]

/-- Claim C1 (what the code actually does at the spec's cycle example): on
the cyclic plan, `_group_by_dependencies` makes no progress in any
iteration — the loop runs forever, appending empty levels, and never raises
any error.  No `CyclicPlanError` exists anywhere in the source. -/
theorem cyclicPlan_group_never_terminates :
    ∀ fuel levels, groupFuel cyclicPlan fuel ∅ levels = none := by
  intro fuel
  induction fuel with
  | zero => intro levels; rfl
  | succ n ih =>
      intro levels
      have hcard : (∅ : Finset Int).card < cyclicPlan.length := by decide
      have hlvl : currentLevel cyclicPlan ∅ = [] := by decide
      rw [groupFuel, if_pos hcard]
      simpa [hlvl] using ih (levels ++ [[]])

theorem mem_currentLevel {plan : List PlanStep} {processed : Finset Int} {idx : Nat} :
    idx ∈ currentLevel plan processed ↔
      idx < plan.length ∧ (idx : Int) ∉ processed ∧
        ∀ d ∈ (stepAt plan idx).depends_on, d ∈ processed := by
  simp [currentLevel, List.mem_filter, List.mem_range, List.all_eq_true, and_assoc]

/-- If some step has a dependency index that is negative or out of range,
the leveler's loop never terminates: that step is never eligible, so
`processed` never reaches the plan's length, whatever the iteration count. -/
theorem groupFuel_stuck_on_invalid_index (plan : List PlanStep) (s : Nat) (d : Int)
    (hs : s < plan.length) (hd : d ∈ (stepAt plan s).depends_on)
    (hbad : d < 0 ∨ (plan.length : Int) ≤ d) :
    ∀ fuel processed levels,
      (∀ x ∈ processed, ∃ k, k < plan.length ∧ x = (k : Int)) →
      (s : Int) ∉ processed →
      groupFuel plan fuel processed levels = none := by
  intro fuel
  induction fuel with
  | zero => intro processed levels _ _; rfl
  | succ n ih =>
      intro processed levels hsub hsnot
      have hsubset : processed ⊆ ((Finset.range plan.length).image Int.ofNat).erase (s : Int) := by
        intro x hx
        obtain ⟨k, hk, rfl⟩ := hsub x hx
        refine Finset.mem_erase.mpr ⟨?_, ?_⟩
        · intro hcontra
          exact hsnot (by simpa [hcontra] using hx)
        · exact Finset.mem_image.mpr ⟨k, Finset.mem_range.mpr hk, rfl⟩
      have hsmem : (s : Int) ∈ (Finset.range plan.length).image Int.ofNat :=
        Finset.mem_image.mpr ⟨s, Finset.mem_range.mpr hs, rfl⟩
      have hcard : processed.card < plan.length := by
        have h1 := Finset.card_le_card hsubset
        have h2 : (((Finset.range plan.length).image Int.ofNat).erase (s : Int)).card
            = ((Finset.range plan.length).image Int.ofNat).card - 1 :=
          Finset.card_erase_of_mem hsmem
        have h3 : ((Finset.range plan.length).image Int.ofNat).card = plan.length := by
          rw [Finset.card_image_of_injective _ (fun a b h => Int.ofNat.inj h)]
          exact Finset.card_range _
        omega
      have hnotlvl : s ∉ currentLevel plan processed := by
        intro hmem
        obtain ⟨-, -, hdeps⟩ := mem_currentLevel.mp hmem
        obtain ⟨k, hk, hdk⟩ := hsub d (hdeps d hd)
        rcases hbad with h | h
        · omega
        · rw [hdk] at h
          exact absurd (by exact_mod_cast h) (by omega)
      rw [groupFuel, if_pos hcard]
      refine ih _ _ ?_ ?_
      · intro x hx
        rcases Finset.mem_union.mp hx with h | h
        · exact hsub x h
        · obtain ⟨j, hj, rfl⟩ := by
            simpa [List.mem_toFinset] using h
          exact ⟨j, (mem_currentLevel.mp hj).1, rfl⟩
      · intro hcontra
        rcases Finset.mem_union.mp hcontra with h | h
        · exact hsnot h
        · rw [List.mem_toFinset] at h
          obtain ⟨j, hj, hjs⟩ := List.mem_map.mp h
          have hjs' : j = s := by
            rw [Int.ofNat_eq_natCast] at hjs
            exact_mod_cast hjs
          subst hjs'
          exact hnotlvl hj

/-- Claim C10: a plan containing a step whose `depends_on` holds an index
that is not a valid step index (negative, or at least the number of steps)
makes the dependency leveler run forever — the step never becomes eligible,
`processed` never fills up, and no iteration count suffices — so plan
execution never returns. -/
theorem group_by_dependencies_diverges_on_invalid_index
    (plan : List PlanStep) (s : Nat) (d : Int)
    (hs : s < plan.length) (hd : d ∈ (stepAt plan s).depends_on)
    (hbad : d < 0 ∨ (plan.length : Int) ≤ d) :
    (∀ fuel levels, groupFuel plan fuel ∅ levels = none)
  ∧ group_by_dependencies plan = none := by
  have h := groupFuel_stuck_on_invalid_index plan s d hs hd hbad
  refine ⟨fun fuel levels => h fuel ∅ levels (by simp) (by simp), ?_⟩
  exact h (plan.length + 1) ∅ [] (by simp) (by simp)

/-- Witness for C10: a one-step plan whose single dependency index 5 is out
of range; the loop is still running after 7 iterations (and any other
count), and the leveler as called by `execute_plan` returns no answer. -/
theorem group_by_dependencies_diverges_witness :
    groupFuel [⟨"tool_a", Json.null, [(5 : Int)]⟩] 7 ∅ [] = none
  ∧ group_by_dependencies [⟨"tool_a", Json.null, [(5 : Int)]⟩] = none := by
  have h := group_by_dependencies_diverges_on_invalid_index
    [⟨"tool_a", Json.null, [(5 : Int)]⟩] 0 5
    (by decide) (by simp [stepAt]) (by right; decide)
  exact ⟨h.1 7 [], h.2⟩

/-- Precondition of C4/C5/C10: every `depends_on` entry is a valid step
index of the plan. -/
def ValidDeps (plan : List PlanStep) : Prop :=
  ∀ j < plan.length, ∀ d ∈ (stepAt plan j).depends_on, 0 ≤ d ∧ d < (plan.length : Int)

/-- Acyclicity of the dependency graph, stated as the existence of a ranking
that strictly decreases along dependency edges (for a finite graph this is
equivalent to having no cycle). -/
def Acyclic (plan : List PlanStep) : Prop :=
  ∃ r : Nat → Nat, ∀ j < plan.length, ∀ d ∈ (stepAt plan j).depends_on, r d.toNat < r j

/-- Loop invariant of `_group_by_dependencies`: `processed` is exactly the
set of already placed indices, every index is placed at most once, placed
indices are plan indices, and each placed step's dependencies sit in
strictly earlier levels. -/
structure LevelInv (plan : List PlanStep) (processed : Finset Int)
    (levels : List (List Nat)) : Prop where
  mem_cast : ∀ x ∈ processed, ∃ k, k < plan.length ∧ x = (k : Int)
  placed_iff : ∀ k : Nat, (k : Int) ∈ processed ↔ k ∈ levels.join
  nodup : levels.join.Nodup
  bounded : ∀ j ∈ levels.join, j < plan.length
  ordered : ∀ i L j, levels.get? i = some L → j ∈ L →
    ∀ d ∈ (stepAt plan j).depends_on,
      ∃ i' L', i' < i ∧ levels.get? i' = some L' ∧ d.toNat ∈ L'

theorem levelInv_empty (plan : List PlanStep) : LevelInv plan ∅ [] := by
  refine ⟨?_, ?_, ?_, ?_, ?_⟩ <;> simp

theorem currentLevel_nodup (plan : List PlanStep) (processed : Finset Int) :
    (currentLevel plan processed).Nodup :=
  (List.nodup_range _).filter _

theorem levelInv_step (plan : List PlanStep) (processed : Finset Int)
    (levels : List (List Nat)) (inv : LevelInv plan processed levels) :
    LevelInv plan (processed ∪ ((currentLevel plan processed).map Int.ofNat).toFinset)
      (levels ++ [currentLevel plan processed]) := by
  set lvl := currentLevel plan processed with hlvl
  have hjoin : (levels ++ [lvl]).join = levels.join ++ lvl := by
    simp
  have hmem_new : ∀ x ∈ ((lvl.map Int.ofNat).toFinset : Finset Int),
      ∃ k, k ∈ lvl ∧ x = (k : Int) := by
    intro x hx
    rw [List.mem_toFinset] at hx
    obtain ⟨k, hk, rfl⟩ := List.mem_map.mp hx
    exact ⟨k, hk, rfl⟩
  refine ⟨?_, ?_, ?_, ?_, ?_⟩
  · intro x hx
    rcases Finset.mem_union.mp hx with h | h
    · exact inv.mem_cast x h
    · obtain ⟨k, hk, rfl⟩ := hmem_new x h
      exact ⟨k, (mem_currentLevel.mp hk).1, rfl⟩
  · intro k
    rw [hjoin, List.mem_append, Finset.mem_union]
    constructor
    · rintro (h | h)
      · exact Or.inl ((inv.placed_iff k).mp h)
      · obtain ⟨k', hk', hkk⟩ := hmem_new _ h
        have : k' = k := by
          exact_mod_cast hkk.symm
        exact Or.inr (this ▸ hk')
    · rintro (h | h)
      · exact Or.inl ((inv.placed_iff k).mpr h)
      · refine Or.inr ?_
        rw [List.mem_toFinset]
        exact List.mem_map.mpr ⟨k, h, rfl⟩
  · rw [hjoin, List.nodup_append]
    refine ⟨inv.nodup, currentLevel_nodup plan processed, ?_⟩
    intro j hj hj'
    have h1 : (j : Int) ∈ processed := (inv.placed_iff j).mpr hj
    have h2 : (j : Int) ∉ processed := (mem_currentLevel.mp hj').2.1
    exact h2 h1
  · intro j hj
    rw [hjoin, List.mem_append] at hj
    rcases hj with h | h
    · exact inv.bounded j h
    · exact (mem_currentLevel.mp h).1
  · intro i L j hi hj d hd
    rcases Nat.lt_trichotomy i levels.length with hlt | heq | hgt
    · rw [List.get?_append hlt] at hi
      obtain ⟨i', L', hii, hi', hmem⟩ := inv.ordered i L j hi hj d hd
      have hi'lt : i' < levels.length := lt_trans hii hlt
      exact ⟨i', L', hii, by rw [List.get?_append hi'lt]; exact hi', hmem⟩
    · subst heq
      have : L = lvl := by
        rw [List.get?_concat_length] at hi
        exact (Option.some.inj hi).symm
      subst this
      have hdeps := (mem_currentLevel.mp hj).2.2 d hd
      have hjlt := (mem_currentLevel.mp hj).1
      obtain ⟨k, hk, hdk⟩ := inv.mem_cast d hdeps
      have hkmem : k ∈ levels.join := (inv.placed_iff k).mp (hdk ▸ hdeps)
      obtain ⟨L', hL', hkL'⟩ := List.mem_join.mp hkmem
      obtain ⟨i', hi'⟩ := List.mem_iff_get?.mp hL'
      have hi'lt : i' < levels.length := by
        by_contra hco
        rw [List.get?_eq_none.mpr (le_of_not_lt hco)] at hi'
        exact Option.noConfusion hi'
      have hdt : d.toNat = k := by
        rw [hdk]
        exact Int.toNat_ofNat k
      exact ⟨i', L', hi'lt, by rw [List.get?_append hi'lt]; exact hi', hdt ▸ hkL'⟩
    · exfalso
      have : (levels ++ [lvl]).length ≤ i := by
        simp only [List.length_append, List.length_singleton]
        omega
      rw [List.get?_eq_none.mpr this] at hi
      exact Option.noConfusion hi

/-- Progress: as long as some plan index is unprocessed, and the dependency
graph is acyclic with valid indices, the scan finds at least one eligible
step (a step of minimal rank among the unprocessed ones). -/
theorem currentLevel_ne_nil (plan : List PlanStep) (r : Nat → Nat)
    (hv : ValidDeps plan)
    (hr : ∀ j < plan.length, ∀ d ∈ (stepAt plan j).depends_on, r d.toNat < r j)
    (processed : Finset Int)
    (hmem : ∀ x ∈ processed, ∃ k, k < plan.length ∧ x = (k : Int))
    (hcard : processed.card < plan.length) :
    currentLevel plan processed ≠ [] := by
  set U : Finset Nat := (Finset.range plan.length).filter (fun k => (k : Int) ∉ processed)
    with hU
  have hUne : U.Nonempty := by
    by_contra hco
    rw [Finset.not_nonempty_iff_eq_empty] at hco
    have hsub : processed ⊆ (Finset.range plan.length).image Int.ofNat := by
      intro x hx
      obtain ⟨k, hk, rfl⟩ := hmem x hx
      exact Finset.mem_image.mpr ⟨k, Finset.mem_range.mpr hk, rfl⟩
    have hsup : (Finset.range plan.length).image Int.ofNat ⊆ processed := by
      intro x hx
      obtain ⟨k, hk, rfl⟩ := Finset.mem_image.mp hx
      by_contra hnot
      have : k ∈ U := Finset.mem_filter.mpr ⟨hk, hnot⟩
      simp [hco] at this
    have : ((Finset.range plan.length).image Int.ofNat).card = plan.length := by
      rw [Finset.card_image_of_injective _ (fun a b h => Int.ofNat.inj h)]
      exact Finset.card_range _
    have := Finset.card_le_card hsup
    omega
  obtain ⟨m, hmU, hmin⟩ := Finset.exists_min_image U r hUne
  have hmlt : m < plan.length := Finset.mem_range.mp (Finset.mem_filter.mp hmU).1
  have hmnot : (m : Int) ∉ processed := (Finset.mem_filter.mp hmU).2
  have hmel : m ∈ currentLevel plan processed := by
    refine mem_currentLevel.mpr ⟨hmlt, hmnot, ?_⟩
    intro d hd
    obtain ⟨hd0, hdlt⟩ := hv m hmlt d hd
    have hklt : d.toNat < plan.length := by omega
    by_contra hnot
    have hkU : d.toNat ∈ U := by
      refine Finset.mem_filter.mpr ⟨Finset.mem_range.mpr hklt, ?_⟩
      intro hco
      rw [Int.toNat_of_nonneg hd0] at hco
      exact hnot hco
    have h1 : r m ≤ r d.toNat := hmin _ hkU
    have h2 : r d.toNat < r m := hr m hmlt d hd
    omega
  exact List.ne_nil_of_mem hmel

/-- Termination with correctness: under valid indices and acyclicity the
loop of `_group_by_dependencies` halts as soon as the fuel exceeds the
number of still unprocessed indices, and the levels it returns place every
index exactly once, with dependencies in strictly earlier levels. -/
theorem groupFuel_main (plan : List PlanStep) (r : Nat → Nat)
    (hv : ValidDeps plan)
    (hr : ∀ j < plan.length, ∀ d ∈ (stepAt plan j).depends_on, r d.toNat < r j) :
    ∀ fuel processed levels, LevelInv plan processed levels →
      plan.length - processed.card < fuel →
      ∃ out, groupFuel plan fuel processed levels = some out ∧
        out.join.Nodup ∧ (∀ j, j ∈ out.join ↔ j < plan.length) ∧
        (∀ i L j, out.get? i = some L → j ∈ L →
          ∀ d ∈ (stepAt plan j).depends_on,
            ∃ i' L', i' < i ∧ out.get? i' = some L' ∧ d.toNat ∈ L') := by
  intro fuel
  induction fuel with
  | zero => intro processed levels _ hfuel; omega
  | succ n ih =>
      intro processed levels inv hfuel
      by_cases hcard : processed.card < plan.length
      · have hne := currentLevel_ne_nil plan r hv hr processed inv.mem_cast hcard
        obtain ⟨m, hm⟩ := List.exists_mem_of_ne_nil _ hne
        have hmnot : (m : Int) ∉ processed := (mem_currentLevel.mp hm).2.1
        have hss : processed ⊂
            processed ∪ ((currentLevel plan processed).map Int.ofNat).toFinset := by
          refine Finset.ssubset_iff_of_subset Finset.subset_union_left |>.mpr ?_
          refine ⟨(m : Int), ?_, hmnot⟩
          refine Finset.mem_union_right _ ?_
          rw [List.mem_toFinset]
          exact List.mem_map.mpr ⟨m, hm, rfl⟩
        have hcards := Finset.card_lt_card hss
        have hstep := levelInv_step plan processed levels inv
        have hcard2 : ∀ x ∈ (processed ∪
            ((currentLevel plan processed).map Int.ofNat).toFinset),
            ∃ k, k < plan.length ∧ x = (k : Int) := hstep.mem_cast
        have hsub : (processed ∪
            ((currentLevel plan processed).map Int.ofNat).toFinset) ⊆
            (Finset.range plan.length).image Int.ofNat := by
          intro x hx
          obtain ⟨k, hk, rfl⟩ := hcard2 x hx
          exact Finset.mem_image.mpr ⟨k, Finset.mem_range.mpr hk, rfl⟩
        have himg : ((Finset.range plan.length).image Int.ofNat).card = plan.length := by
          rw [Finset.card_image_of_injective _ (fun a b h => Int.ofNat.inj h)]
          exact Finset.card_range _
        have hub := Finset.card_le_card hsub
        obtain ⟨out, hout, hrest⟩ := ih _ _ hstep (by omega)
        refine ⟨out, ?_, hrest⟩
        rw [groupFuel, if_pos hcard]
        exact hout
      · refine ⟨levels, ?_, inv.nodup, ?_, inv.ordered⟩
        · rw [groupFuel, if_neg hcard]
        · intro j
          constructor
          · exact inv.bounded j
          · intro hj
            have hsub : processed ⊆ (Finset.range plan.length).image Int.ofNat := by
              intro x hx
              obtain ⟨k, hk, rfl⟩ := inv.mem_cast x hx
              exact Finset.mem_image.mpr ⟨k, Finset.mem_range.mpr hk, rfl⟩
            have himg : ((Finset.range plan.length).image Int.ofNat).card = plan.length := by
              rw [Finset.card_image_of_injective _ (fun a b h => Int.ofNat.inj h)]
              exact Finset.card_range _
            have heq : processed = (Finset.range plan.length).image Int.ofNat :=
              Finset.eq_of_subset_of_card_le hsub (by omega)
            have : (j : Int) ∈ processed := by
              rw [heq]
              exact Finset.mem_image.mpr ⟨j, Finset.mem_range.mpr hj, rfl⟩
            exact (inv.placed_iff j).mp this

/-- In a list of lists whose concatenation has no duplicates, an element
determines the (unique) inner list position that contains it. -/
theorem join_nodup_unique_level :
    ∀ (levels : List (List Nat)), levels.join.Nodup →
      ∀ i i' L L' (x : Nat), levels.get? i = some L → levels.get? i' = some L' →
        x ∈ L → x ∈ L' → i = i' := by
  intro levels
  induction levels with
  | nil => intro _ i i' L L' x hi; simp [List.get?] at hi
  | cons hd tl ih =>
      intro hnodup i i' L L' x hi hi' hx hx'
      have hjn : (hd :: tl).join = hd ++ tl.join := by
        simp
      rw [hjn, List.nodup_append] at hnodup
      have hnd := hnodup
      match i, i' with
      | 0, 0 => rfl
      | 0, Nat.succ b =>
          exfalso
          have hL : L = hd := by
            have h := hi
            simp at h
            exact h.symm
          have hmem : x ∈ tl.join := by
            refine List.mem_join.mpr ⟨L', List.get?_mem (by simpa using hi'), hx'⟩
          exact hnd.2.2 (hL ▸ hx) hmem
      | Nat.succ a, 0 =>
          exfalso
          have hL' : L' = hd := by
            have h := hi'
            simp at h
            exact h.symm
          have hmem : x ∈ tl.join := by
            refine List.mem_join.mpr ⟨L, List.get?_mem (by simpa using hi), hx⟩
          exact hnd.2.2 (hL' ▸ hx') hmem
      | Nat.succ a, Nat.succ b =>
          have := ih hnd.2.1 a b L L' x (by simpa using hi) (by simpa using hi') hx hx'
          omega

/-- Claim C4: for every acyclic plan with valid dependency indices, the
leveler terminates and, in its output, every dependency of a placed step
lies in a strictly earlier level than the step itself. -/
theorem group_by_dependencies_ordered (plan : List PlanStep)
    (hv : ValidDeps plan) (hac : Acyclic plan) :
    ∃ levels, group_by_dependencies plan = some levels ∧
      ∀ i L j, levels.get? i = some L → j ∈ L →
        ∀ d ∈ (stepAt plan j).depends_on,
          ∀ i' L', levels.get? i' = some L' → d.toNat ∈ L' → i' < i := by
  obtain ⟨r, hr⟩ := hac
  obtain ⟨out, hout, hnodup, _, hord⟩ :=
    groupFuel_main plan r hv hr (plan.length + 1) ∅ [] (levelInv_empty plan) (by simp)
  refine ⟨out, hout, ?_⟩
  intro i L j hi hj d hd i' L' hi' hd'
  obtain ⟨i0, L0, hi0lt, hi0, hd0⟩ := hord i L j hi hj d hd
  have : i' = i0 := join_nodup_unique_level out hnodup i' i0 L' L0 d.toNat hi' hi0 hd' hd0
  omega

/-- Witness for C4: the two-step plan where step 1 depends on step 0. -/
theorem group_by_dependencies_ordered_witness :
    ∃ levels, group_by_dependencies
        [⟨"tool_a", Json.null, []⟩, ⟨"tool_b", Json.null, [(0 : Int)]⟩] = some levels ∧
      ∀ i L j, levels.get? i = some L → j ∈ L →
        ∀ d ∈ (stepAt [⟨"tool_a", Json.null, []⟩,
            ⟨"tool_b", Json.null, [(0 : Int)]⟩] j).depends_on,
          ∀ i' L', levels.get? i' = some L' → d.toNat ∈ L' → i' < i :=
  group_by_dependencies_ordered _ (by unfold ValidDeps; decide) ⟨fun k => k, by decide⟩

/-- Claim C5: for every acyclic plan with valid dependency indices, the
leveler terminates and every step index appears in exactly one level — the
concatenation of the levels has no duplicates and contains precisely the
indices below the plan's length. -/
theorem group_by_dependencies_complete (plan : List PlanStep)
    (hv : ValidDeps plan) (hac : Acyclic plan) :
    ∃ levels, group_by_dependencies plan = some levels ∧
      levels.join.Nodup ∧ (∀ j, j ∈ levels.join ↔ j < plan.length) := by
  obtain ⟨r, hr⟩ := hac
  obtain ⟨out, hout, hnodup, hcompl, _⟩ :=
    groupFuel_main plan r hv hr (plan.length + 1) ∅ [] (levelInv_empty plan) (by simp)
  exact ⟨out, hout, hnodup, hcompl⟩

/-- Witness for C5: a three-step plan with a diamond-free dependency. -/
theorem group_by_dependencies_complete_witness :
    ∃ levels, group_by_dependencies
        [⟨"tool_a", Json.null, []⟩, ⟨"tool_b", Json.null, [(0 : Int)]⟩,
         ⟨"tool_c", Json.null, [(0 : Int), (1 : Int)]⟩] = some levels ∧
      levels.join.Nodup ∧ (∀ j, j ∈ levels.join ↔ j < 3) :=
  group_by_dependencies_complete _ (by unfold ValidDeps; decide) ⟨fun k => k, by decide⟩

/-- The key under which `execute_plan` stores the outcome of step `idx`
(the Python f-string `step_` followed by the decimal index). -/
def stepKey (idx : Nat) : String :=
  "step_" ++ Nat.repr idx

/-- Decimal value of a digit character. -/
def digitVal (c : Char) : Nat :=
  c.toNat - 48

/-- Value of a most-significant-first digit string, starting from `a`. -/
def decValFrom (a : Nat) (l : List Char) : Nat :=
  l.foldl (fun acc c => 10 * acc + digitVal c) a

theorem decValFrom_append (a : Nat) (l₁ l₂ : List Char) :
    decValFrom a (l₁ ++ l₂) = decValFrom (decValFrom a l₁) l₂ := by
  simp [decValFrom, List.foldl_append]

theorem digitVal_digitChar (m : Nat) (h : m < 10) :
    digitVal (Nat.digitChar m) = m := by
  interval_cases m <;> decide

theorem toDigitsCore_append :
    ∀ (fuel n : Nat) (ds : List Char),
      Nat.toDigitsCore 10 fuel n ds = Nat.toDigitsCore 10 fuel n [] ++ ds := by
  intro fuel
  induction fuel with
  | zero => intro n ds; simp [Nat.toDigitsCore]
  | succ f ih =>
      intro n ds
      simp only [Nat.toDigitsCore]
      by_cases h : n / 10 = 0
      · simp [h]
      · simp only [h, if_false]
        rw [ih (n / 10) [Nat.digitChar (n % 10)],
          ih (n / 10) (Nat.digitChar (n % 10) :: ds)]
        simp

theorem decValFrom_toDigitsCore :
    ∀ (fuel n a : Nat), n < fuel →
      decValFrom a (Nat.toDigitsCore 10 fuel n [])
        = a * 10 ^ (Nat.toDigitsCore 10 fuel n []).length + n := by
  intro fuel
  induction fuel with
  | zero => intro n a h; omega
  | succ f ih =>
      intro n a h
      simp only [Nat.toDigitsCore]
      by_cases h0 : n / 10 = 0
      · have hn : n < 10 := by omega
        have hm : n % 10 = n := Nat.mod_eq_of_lt hn
        rw [if_pos h0]
        simp only [decValFrom, List.foldl_cons, List.foldl_nil, List.length_singleton,
          hm, digitVal_digitChar n hn, pow_one]
        omega
      · have hlt : n / 10 < f := by
          have h1 : n / 10 < n := Nat.div_lt_self (by omega) (by omega)
          omega
        simp only [h0, if_false]
        rw [toDigitsCore_append f (n / 10) [Nat.digitChar (n % 10)]]
        rw [decValFrom_append, ih (n / 10) a hlt]
        simp only [List.length_append, List.length_singleton]
        have hmod : n % 10 < 10 := Nat.mod_lt _ (by omega)
        simp only [decValFrom, List.foldl_cons, List.foldl_nil,
          digitVal_digitChar (n % 10) hmod]
        have : n = 10 * (n / 10) + n % 10 := (Nat.div_add_mod n 10).symm
        ring_nf
        omega

theorem nat_repr_injective : Function.Injective Nat.repr := by
  intro a b hab
  have ha := decValFrom_toDigitsCore (a + 1) a 0 (by omega)
  have hb := decValFrom_toDigitsCore (b + 1) b 0 (by omega)
  have hdata : Nat.toDigits 10 a = Nat.toDigits 10 b := by
    have h1 : (Nat.repr a).data = (Nat.repr b).data := by rw [hab]
    simpa [Nat.repr, List.asString] using h1
  have ha' : decValFrom 0 (Nat.toDigits 10 a) = a := by
    simpa [Nat.toDigits] using ha
  have hb' : decValFrom 0 (Nat.toDigits 10 b) = b := by
    simpa [Nat.toDigits] using hb
  rw [← ha', ← hb', hdata]

theorem stepKey_injective : Function.Injective stepKey := by
  intro a b hab
  have hdata : ("step_" ++ Nat.repr a).data = ("step_" ++ Nat.repr b).data := by
    rw [show ("step_" ++ Nat.repr a) = stepKey a from rfl,
      show ("step_" ++ Nat.repr b) = stepKey b from rfl, hab]
  rw [String.data_append, String.data_append] at hdata
  have : (Nat.repr a).data = (Nat.repr b).data := List.append_cancel_left hdata
  exact nat_repr_injective (String.ext this)

/-- The result map accumulated by `execute_plan` (the Python dict
`results`). -/
abbrev ResultMap := List (String × Json)

/-- `GenesisAgent._execute_step` (src/agent/genesis_agent.py, lines
164-178): resolve the step's parameters against the results accumulated so
far, then fetch and invoke the tool.  Tool lookup and invocation are one
opaque capability that may raise (`ToolNotFoundError`,
`RemoteInvocationError`, ...); nothing in `_execute_step` catches, so a
raise is `Except.error`. -/
def execute_step (tool : String → Json → Except String Json) (plan : List PlanStep)
    (results : ResultMap) (idx : Nat) : Except String Json :=
  let step := stepAt plan idx
  let params := substitute_references step.parameters results
  tool step.tool_id params

/-- `await asyncio.gather(*level_tasks)` without `return_exceptions`: every
task of the level is issued against the same `results` map; if any raises,
the exception propagates (the embedding surfaces the first one in list
order), otherwise all results are collected in order. -/
def gatherSteps (tool : String → Json → Except String Json) (plan : List PlanStep)
    (results : ResultMap) : List Nat → Except String (List Json)
  | [] => .ok []
  | idx :: rest =>
      match execute_step tool plan results idx with
      | .error e => .error e
      | .ok r =>
          match gatherSteps tool plan results rest with
          | .error e => .error e
          | .ok rs => .ok (r :: rs)

/-- The `for idx, result in zip(level, level_results)` store loop of
`execute_plan`: dict assignment under the key `step_<idx>`, run only after
the whole level has completed. -/
def storeResults (results : ResultMap) (pairs : List (Nat × Json)) : ResultMap :=
  pairs.foldl (fun m p => setKey m (stepKey p.1) p.2) results

/-- The `for level in dependency_levels` loop of `execute_plan`
(src/agent/genesis_agent.py, lines 148-162): run a level against the map
accumulated so far, store its results, move to the next level; an uncaught
step exception aborts the remaining levels and propagates to the caller. -/
def runLevels (tool : String → Json → Except String Json) (plan : List PlanStep) :
    List (List Nat) → ResultMap → Except String ResultMap
  | [], results => .ok results
  | lvl :: rest, results =>
      match gatherSteps tool plan results lvl with
      | .error e => .error e
      | .ok lvlResults =>
          runLevels tool plan rest (storeResults results (lvl.zip lvlResults))

/-- The argument of `execute_plan`: a bare list of steps, a dict carrying a
`steps` key, or any other Python value. -/
inductive PlanInput where
  | listPlan (steps : List PlanStep)
  | dictPlan (steps : List PlanStep)
  | other

/-- Levelling followed by level-by-level execution, the body of
`execute_plan` after plan normalization.  The outer `Option` models the
dependency-levelling loop: `none` means that loop never terminates (by
`groupFuel`'s structure, a loop that has not finished after `length + 1`
iterations has made an empty scan and can never finish). -/
def execute_plan_steps (tool : String → Json → Except String Json)
    (steps : List PlanStep) : Option (Except String ResultMap) :=
  match group_by_dependencies steps with
  | none => none
  | some levels => some (runLevels tool steps levels [])

/-- `GenesisAgent.execute_plan` (src/agent/genesis_agent.py, lines
131-162): normalize the plan (dict with `steps`, bare list, or the
malformed-plan early return of a normal result dict), then level and
execute. -/
def execute_plan (tool : String → Json → Except String Json) :
    PlanInput → Option (Except String ResultMap)
  | .dictPlan steps => execute_plan_steps tool steps
  | .listPlan steps => execute_plan_steps tool steps
  | .other => some (.ok [("error", Json.str "Invalid plan format")])

/-- A concrete tool capability: raises on the id `fail_tool`, succeeds
otherwise. -/
def demoTool : String → Json → Except String Json :=
  fun id _ => if id = "fail_tool" then .error "boom" else .ok (Json.num 1)

/-- A concrete tool capability that always succeeds. -/
def constTool : String → Json → Except String Json :=
  fun _ _ => .ok Json.null

/-- Counterexample to C3 as stated: on a malformed plan input,
`execute_plan` does not fail — there is no `MalformedPlanError` anywhere in
the source; it returns the normal result map with the single entry `error`
mapped to `Invalid plan format` (an `Except.ok`, not an `Except.error`). -/
theorem execute_plan_malformed_not_an_exception :
    execute_plan demoTool PlanInput.other
      = some (Except.ok [("error", Json.str "Invalid plan format")]) := rfl

/-- Claim C3 as amended: for every input that is neither a step sequence
nor a record with a `steps` field, `execute_plan` returns immediately with
the normal result map containing the single entry `error` mapped to
`Invalid plan format`; the failure is surfaced to the caller as a returned
value, not as a raised `MalformedPlanError`. -/
theorem execute_plan_malformed (tool : String → Json → Except String Json) :
    execute_plan tool PlanInput.other
      = some (Except.ok [("error", Json.str "Invalid plan format")]) := rfl

/-- Witness for amended C3 at a concrete tool capability. -/
theorem execute_plan_malformed_witness :
    execute_plan constTool PlanInput.other
      = some (Except.ok [("error", Json.str "Invalid plan format")]) :=
  execute_plan_malformed constTool

/-- Two dependency-free steps, the first of which raises. -/
def twoStepPlan : List PlanStep :=
  [⟨"fail_tool", Json.null, []⟩, ⟨"ok_tool", Json.null, []⟩]

theorem substitute_null (results : List (String × Json)) :
    substitute results Json.null = Json.null := by
  simp [substitute]

/-- Counterexample to C2 as stated: with two independent steps where the
first raises and the second would succeed, `execute_plan` of
src/agent/genesis_agent.py aborts with the propagated exception — the
returned value is an error, not a result map holding one success entry and
one error entry; no per-step failure is recorded anywhere. -/
theorem execute_plan_aborts_on_step_failure :
    execute_plan demoTool (PlanInput.listPlan twoStepPlan)
      = some (Except.error "boom") := by
  have hlv : group_by_dependencies twoStepPlan = some [[0, 1]] := by rfl
  show execute_plan_steps demoTool twoStepPlan = some (Except.error "boom")
  unfold execute_plan_steps
  rw [hlv]
  simp [runLevels, gatherSteps, execute_step, stepAt, substitute_references,
    substitute_null, demoTool, twoStepPlan]

/-- One step of the structured `ExecutionPlan` consumed by
`EnhancedGenesisAgent.execute_plan` (src/agent/enhanced_genesis_agent.py):
a tool name and its parameters. -/
structure EnhPlanStep where
  tool_name : String
  parameters : Json

/-- An entry appended to `results["steps_executed"]`: a recorded result or
a recorded error, tagged with the tool name. -/
inductive StepRecord where
  | ok (tool : String) (result : Json)
  | err (tool : String) (error : String)

/-- The `results` dict built by the enhanced executor: the ordered
`steps_executed` log and the `final_results` map keyed by tool name. -/
structure EnhResults where
  steps_executed : List StepRecord
  final_results : List (String × Json)

/-- One iteration of the `for step in plan.steps` loop of
`EnhancedGenesisAgent.execute_plan` (lines 402-441), entirely inside a
`try`: a falsy tool lookup silently skips the step; a successful call
appends a result record and stores the result under the tool name; any
raise is caught and recorded as an error record for that step only. -/
def enhStep (tools : String → Option (Json → Except String Json))
    (transform : String → Json → Json) (acc : EnhResults) (step : EnhPlanStep) :
    EnhResults :=
  match tools step.tool_name with
  | none => acc
  | some exec =>
      match exec (transform step.tool_name step.parameters) with
      | .ok r =>
          ⟨acc.steps_executed ++ [.ok step.tool_name r],
           setKey acc.final_results step.tool_name r⟩
      | .error e =>
          ⟨acc.steps_executed ++ [.err step.tool_name e], acc.final_results⟩

/-- `EnhancedGenesisAgent.execute_plan`: the sequential loop over the
plan's steps, starting from empty `steps_executed` and `final_results`.
The parameter heuristics `_transform_parameters_for_tool` are passed in as
an opaque total function. -/
def enhanced_execute_plan (tools : String → Option (Json → Except String Json))
    (transform : String → Json → Json) (steps : List EnhPlanStep) : EnhResults :=
  steps.foldl (enhStep tools transform) ⟨[], []⟩

theorem enhStep_split (tools : String → Option (Json → Except String Json))
    (transform : String → Json → Json) (recs : List StepRecord)
    (m : List (String × Json)) (s : EnhPlanStep) :
    enhStep tools transform ⟨recs, m⟩ s
      = ⟨recs ++ (enhStep tools transform ⟨[], m⟩ s).steps_executed,
         (enhStep tools transform ⟨[], m⟩ s).final_results⟩ := by
  unfold enhStep
  cases htool : tools s.tool_name with
  | none => simp
  | some exec =>
      cases hx : exec (transform s.tool_name s.parameters) with
      | ok r => simp [hx]
      | error e => simp [hx]

theorem enh_foldl_split (tools : String → Option (Json → Except String Json))
    (transform : String → Json → Json) :
    ∀ (steps : List EnhPlanStep) (recs : List StepRecord) (m : List (String × Json)),
      steps.foldl (enhStep tools transform) ⟨recs, m⟩
        = ⟨recs ++ (steps.foldl (enhStep tools transform) ⟨[], m⟩).steps_executed,
           (steps.foldl (enhStep tools transform) ⟨[], m⟩).final_results⟩ := by
  intro steps
  induction steps with
  | nil => intro recs m; simp
  | cons s rest ih =>
      intro recs m
      simp only [List.foldl_cons]
      rw [enhStep_split tools transform recs m s]
      rcases hstep : enhStep tools transform ⟨[], m⟩ s with ⟨recs₁, m₁⟩
      simp only
      rw [ih (recs ++ recs₁) m₁, ih recs₁ m₁]
      simp

/-- Claim C2 as amended: in the leveled executor of
src/agent/genesis_agent.py a step's exception propagates and aborts the
whole plan (see the counterexample); the catch-and-record per-step policy
holds in the sequential executor of src/agent/enhanced_genesis_agent.py,
where a failing step is recorded as an error entry tagged with its tool
name, contributes nothing to `final_results`, and all remaining steps still
execute exactly as they would have without the failure. -/
theorem enhanced_execute_plan_isolates_failure
    (tools : String → Option (Json → Except String Json))
    (transform : String → Json → Json) (name : String) (params : Json)
    (rest : List EnhPlanStep) (f : Json → Except String Json) (e : String)
    (hf : tools name = some f)
    (he : f (transform name params) = .error e) :
    (enhanced_execute_plan tools transform (⟨name, params⟩ :: rest)).steps_executed
      = StepRecord.err name e
          :: (enhanced_execute_plan tools transform rest).steps_executed
  ∧ (enhanced_execute_plan tools transform (⟨name, params⟩ :: rest)).final_results
      = (enhanced_execute_plan tools transform rest).final_results := by
  have hstep : enhStep tools transform ⟨[], []⟩ ⟨name, params⟩
      = ⟨[StepRecord.err name e], []⟩ := by
    unfold enhStep
    simp [hf, he]
  unfold enhanced_execute_plan
  simp only [List.foldl_cons, hstep]
  rw [enh_foldl_split tools transform rest [StepRecord.err name e] []]
  simp

/-- A concrete tool registry for the witness: `down_tool` raises, anything
else succeeds. -/
def demoTools : String → Option (Json → Except String Json) :=
  fun n => if n = "down_tool" then some (fun _ => Except.error "down")
           else some (fun _ => Except.ok (Json.num 2))

/-- The identity parameter transformation. -/
def idTransform : String → Json → Json := fun _ p => p

/-- Witness for amended C2: a failing first step is recorded and the
remaining step still runs. -/
theorem enhanced_execute_plan_isolates_failure_witness :
    (enhanced_execute_plan demoTools idTransform
        [⟨"down_tool", Json.null⟩, ⟨"ok2", Json.null⟩]).steps_executed
      = StepRecord.err "down_tool" "down"
          :: (enhanced_execute_plan demoTools idTransform
              [⟨"ok2", Json.null⟩]).steps_executed
  ∧ (enhanced_execute_plan demoTools idTransform
        [⟨"down_tool", Json.null⟩, ⟨"ok2", Json.null⟩]).final_results
      = (enhanced_execute_plan demoTools idTransform
          [⟨"ok2", Json.null⟩]).final_results :=
  enhanced_execute_plan_isolates_failure demoTools idTransform "down_tool" Json.null
    [⟨"ok2", Json.null⟩] (fun _ => Except.error "down") "down" (by rfl) (by rfl)

theorem getKey?_eq_none_of_not_mem :
    ∀ (m : ResultMap) (k : String), k ∉ m.map Prod.fst → getKey? m k = none := by
  intro m
  induction m with
  | nil => intro k _; rfl
  | cons kv rest ih =>
      intro k hk
      simp only [List.map_cons, List.mem_cons] at hk
      push_neg at hk
      rw [getKey?, if_neg (by exact fun h => hk.1 h.symm), ih k hk.2]

theorem setKey_fresh :
    ∀ (m : ResultMap) (k : String) (v : Json), k ∉ m.map Prod.fst →
      setKey m k v = m ++ [(k, v)] := by
  intro m
  induction m with
  | nil => intro k v _; rfl
  | cons kv rest ih =>
      intro k v hk
      simp only [List.map_cons, List.mem_cons] at hk
      push_neg at hk
      rw [setKey, if_neg (by exact fun h => hk.1 h.symm), ih k v hk.2]
      simp

theorem gatherSteps_ok_length (tool : String → Json → Except String Json)
    (plan : List PlanStep) (results : ResultMap) :
    ∀ (lvl : List Nat) (rs : List Json),
      gatherSteps tool plan results lvl = .ok rs → rs.length = lvl.length := by
  intro lvl
  induction lvl with
  | nil =>
      intro rs h
      simp only [gatherSteps] at h
      cases h
      rfl
  | cons idx rest ih =>
      intro rs h
      simp only [gatherSteps] at h
      cases hstep : execute_step tool plan results idx with
      | error e => rw [hstep] at h; cases h
      | ok r =>
          rw [hstep] at h
          cases hrest : gatherSteps tool plan results rest with
          | error e => rw [hrest] at h; cases h
          | ok rs' =>
              rw [hrest] at h
              cases h
              simp [ih rs' hrest]

theorem storeResults_fresh :
    ∀ (pairs : List (Nat × Json)) (results : ResultMap),
      (∀ p ∈ pairs, stepKey p.1 ∉ results.map Prod.fst) →
      (pairs.map (fun p => stepKey p.1)).Nodup →
      storeResults results pairs = results ++ pairs.map (fun p => (stepKey p.1, p.2)) := by
  intro pairs
  induction pairs with
  | nil => intro results _ _; simp [storeResults]
  | cons p rest ih =>
      intro results hfresh hnodup
      simp only [List.map_cons, List.nodup_cons] at hnodup
      have h1 : setKey results (stepKey p.1) p.2 = results ++ [(stepKey p.1, p.2)] :=
        setKey_fresh results _ _ (hfresh p (List.mem_cons_self p rest))
      have h2 : storeResults results (p :: rest)
          = storeResults (setKey results (stepKey p.1) p.2) rest := by
        simp [storeResults]
      rw [h2, h1, ih (results ++ [(stepKey p.1, p.2)]) ?_ hnodup.2]
      · simp
      · intro q hq
        simp only [List.map_append, List.mem_append, List.map_cons, List.map_nil,
          List.mem_singleton]
        push_neg
        refine ⟨hfresh q (List.mem_cons_of_mem p hq), ?_⟩
        intro hco
        exact hnodup.1 (hco ▸ List.mem_map.mpr ⟨q, hq, rfl⟩)

/-- The result map that the steps of level `i` observe when `execute_plan`
reaches that level: the map accumulated after the first `i` levels.  This is
literally the `results` argument that `runLevels` passes to level `i`'s
`gatherSteps`; `none` means execution never reaches level `i` (an earlier
level raised). -/
def visibleMap (tool : String → Json → Except String Json) (plan : List PlanStep) :
    List (List Nat) → ResultMap → Nat → Option ResultMap
  | _, results, 0 => some results
  | [], _, _ + 1 => none
  | lvl :: rest, results, i + 1 =>
      match gatherSteps tool plan results lvl with
      | .error _ => none
      | .ok lvlResults =>
          visibleMap tool plan rest (storeResults results (lvl.zip lvlResults)) i

theorem visibleMap_runLevels (tool : String → Json → Except String Json)
    (plan : List PlanStep) :
    ∀ (i : Nat) (levels : List (List Nat)) (results m : ResultMap),
      visibleMap tool plan levels results i = some m →
      runLevels tool plan levels results = runLevels tool plan (levels.drop i) m := by
  intro i
  induction i with
  | zero =>
      intro levels results m h
      simp only [visibleMap] at h
      cases h
      rfl
  | succ n ih =>
      intro levels results m h
      cases levels with
      | nil => simp [visibleMap] at h
      | cons lvl rest =>
          simp only [visibleMap] at h
          cases hg : gatherSteps tool plan results lvl with
          | error e => rw [hg] at h; cases h
          | ok rs =>
              rw [hg] at h
              have := ih rest (storeResults results (lvl.zip rs)) m h
              simp only [List.drop_succ_cons]
              rw [← this]
              simp only [runLevels, hg]

theorem visibleMap_keys (tool : String → Json → Except String Json)
    (plan : List PlanStep) :
    ∀ (i : Nat) (levels : List (List Nat)) (done : List Nat) (results m : ResultMap),
      results.map Prod.fst = done.map stepKey →
      (done ++ levels.join).Nodup →
      visibleMap tool plan levels results i = some m →
      m.map Prod.fst = (done ++ (levels.take i).join).map stepKey := by
  intro i
  induction i with
  | zero =>
      intro levels done results m hkeys _ h
      simp only [visibleMap] at h
      cases h
      simpa using hkeys
  | succ n ih =>
      intro levels done results m hkeys hnodup h
      cases levels with
      | nil => simp [visibleMap] at h
      | cons lvl rest =>
          simp only [visibleMap] at h
          cases hg : gatherSteps tool plan results lvl with
          | error e => rw [hg] at h; cases h
          | ok rs =>
              rw [hg] at h
              have hlen : rs.length = lvl.length :=
                gatherSteps_ok_length tool plan results lvl rs hg
              have hzipfst : (lvl.zip rs).map Prod.fst = lvl :=
                List.map_fst_zip lvl rs (by omega)
              have hnodup' : (done ++ (lvl ++ rest.join)).Nodup := by
                have hjn : (lvl :: rest).join = lvl ++ rest.join := by simp
                rw [hjn] at hnodup
                exact hnodup
              have hnodup'' : ((done ++ lvl) ++ rest.join).Nodup := by
                simpa [List.append_assoc] using hnodup'
              have hdisj : ∀ x ∈ lvl, x ∉ done := by
                intro x hx hxdone
                rw [List.nodup_append] at hnodup'
                exact hnodup'.2.2 hxdone (by simp [hx])
              have hlvlnodup : lvl.Nodup := by
                rw [List.nodup_append, List.nodup_append] at hnodup'
                exact hnodup'.2.1.1
              have hfresh : ∀ p ∈ lvl.zip rs, stepKey p.1 ∉ results.map Prod.fst := by
                intro p hp
                rw [hkeys]
                intro hmem
                obtain ⟨q, hq, hqs⟩ := List.mem_map.mp hmem
                have : q = p.1 := stepKey_injective hqs
                subst this
                exact hdisj p.1 (List.mem_zip hp).1 hq
              have hmapnodup : ((lvl.zip rs).map (fun p => stepKey p.1)).Nodup := by
                have h1 : (lvl.zip rs).map (fun p => stepKey p.1)
                    = lvl.map stepKey := by
                  rw [show (fun p : Nat × Json => stepKey p.1)
                      = stepKey ∘ Prod.fst from rfl, ← List.map_map, hzipfst]
                rw [h1]
                exact hlvlnodup.map stepKey_injective
              have hstore : (storeResults results (lvl.zip rs)).map Prod.fst
                  = (done ++ lvl).map stepKey := by
                rw [storeResults_fresh (lvl.zip rs) results hfresh hmapnodup]
                simp only [List.map_append, List.map_map]
                rw [hkeys]
                congr 1
                rw [show ((fun p : String × Json => p.1) ∘
                    fun p : Nat × Json => (stepKey p.1, p.2))
                    = stepKey ∘ Prod.fst from rfl, ← List.map_map, hzipfst]
              have := ih rest (done ++ lvl) (storeResults results (lvl.zip rs)) m
                hstore hnodup'' h
              rw [this]
              simp [List.append_assoc]

/-- Claim C8: during execution of a (valid, acyclic) plan, the result map a
step observes is exactly the map accumulated by the strictly earlier levels:
`runLevels` hands level `i` precisely the `visibleMap` after `i` levels,
whose keys are exactly `step_<j>` for the `j` of earlier levels; in
particular no step of level `i` ever sees an entry of its own level, and a
level's entries become visible only from the next level on (levels are
stored only after the whole level completed, and later levels run only
after that). -/
theorem execute_plan_level_visibility (plan : List PlanStep)
    (tool : String → Json → Except String Json)
    (hv : ValidDeps plan) (hac : Acyclic plan) :
    ∃ levels, group_by_dependencies plan = some levels ∧
      ∀ i m, visibleMap tool plan levels [] i = some m →
        (runLevels tool plan levels [] = runLevels tool plan (levels.drop i) m)
      ∧ (m.map Prod.fst = ((levels.take i).join).map stepKey)
      ∧ (∀ L, levels.get? i = some L → ∀ j ∈ L, getKey? m (stepKey j) = none) := by
  obtain ⟨r, hr⟩ := hac
  obtain ⟨levels, hout, hnodup, hcompl, _⟩ :=
    groupFuel_main plan r hv hr (plan.length + 1) ∅ [] (levelInv_empty plan) (by simp)
  refine ⟨levels, hout, ?_⟩
  intro i m hm
  have hkeys := visibleMap_keys tool plan i levels [] [] m (by simp)
    (by simpa using hnodup) hm
  have hkeys' : m.map Prod.fst = ((levels.take i).join).map stepKey := by
    simpa using hkeys
  refine ⟨visibleMap_runLevels tool plan i levels [] m hm, hkeys', ?_⟩
  intro L hL j hj
  apply getKey?_eq_none_of_not_mem
  rw [hkeys']
  intro hmem
  obtain ⟨q, hq, hqs⟩ := List.mem_map.mp hmem
  have hq' : q = j := stepKey_injective hqs
  rw [hq'] at hq
  have hdropmem : j ∈ (levels.drop i).join := by
    have hL' : (levels.drop i).get? 0 = some L := by
      rw [List.get?_drop]
      simpa using hL
    exact List.mem_join.mpr ⟨L, List.get?_mem hL', hj⟩
  have hsplit : (levels.take i).join ++ (levels.drop i).join = levels.join := by
    rw [← List.join_append, List.take_append_drop]
  have hnd : levels.join.Nodup := hnodup
  rw [← hsplit, List.nodup_append] at hnd
  exact hnd.2.2 hq hdropmem

/-- A two-level plan whose second step reads the first step's result. -/
def chainPlan : List PlanStep :=
  [⟨"tool_a", Json.null, []⟩,
   ⟨"tool_b", Json.obj [("x", Json.str "$step_0")], [(0 : Int)]⟩]

/-- Witness for C8 at a concrete plan and tool. -/
theorem execute_plan_level_visibility_witness :
    ∃ levels, group_by_dependencies chainPlan = some levels ∧
      ∀ i m, visibleMap constTool chainPlan levels [] i = some m →
        (runLevels constTool chainPlan levels []
          = runLevels constTool chainPlan (levels.drop i) m)
      ∧ (m.map Prod.fst = ((levels.take i).join).map stepKey)
      ∧ (∀ L, levels.get? i = some L → ∀ j ∈ L, getKey? m (stepKey j) = none) :=
  execute_plan_level_visibility chainPlan constTool
    (by unfold ValidDeps; decide) ⟨fun k => k, by decide⟩

/-- A Python runtime value for the heap model of `_substitute_references`:
immutable scalars are inline, mutable containers (dicts and lists) are
references to cells of a store. -/
inductive HVal where
  | null
  | bool (b : Bool)
  | num (n : Int)
  | str (s : String)
  | ref (a : Nat)

/-- A heap cell: a Python dict or list. -/
inductive HNode where
  | obj (fields : List (String × HVal))
  | arr (elems : List HVal)

/-- The heap: cell `a` is `σ.get? a`; allocation appends a cell. -/
abbrev Store := List HNode

/-- Python `dict.get` over heap values. -/
def getKeyH? (m : List (String × HVal)) (k : String) : Option HVal :=
  match m with
  | [] => none
  | kv :: rest => if kv.1 = k then some kv.2 else getKeyH? rest k

/-- State-passing map over a list (the comprehensions of `substitute`),
threading the store and propagating fuel exhaustion. -/
def mapStore (f : α → Store → Option β × Store) :
    List α → Store → Option (List β) × Store
  | [], σ => (some [], σ)
  | x :: rest, σ =>
      match f x σ with
      | (none, σ₁) => (none, σ₁)
      | (some y, σ₁) =>
          match mapStore f rest σ₁ with
          | (none, σ₂) => (none, σ₂)
          | (some ys, σ₂) => (some (y :: ys), σ₂)

/-- Heap-level rendering of the inner `substitute` closure of
`_substitute_references`: scalars are returned as-is, resolved references
are returned by reference without copying, and for a dict or list the cell
is read and a fresh cell holding the rewritten copy is allocated at the end
of the store (the dict/list comprehension builds a new object).  No branch
writes to an existing cell.  The fuel bounds the recursion depth, as
Python's recursion limit does. -/
def substituteH (results : List (String × HVal)) :
    Nat → HVal → Store → Option HVal × Store
  | 0, _, σ => (none, σ)
  | _ + 1, .null, σ => (some .null, σ)
  | _ + 1, .bool b, σ => (some (.bool b), σ)
  | _ + 1, .num n, σ => (some (.num n), σ)
  | _ + 1, .str s, σ =>
      if startsWithSigil s then (some ((getKeyH? results (s.drop 1)).getD (.str s)), σ)
      else (some (.str s), σ)
  | fuel + 1, .ref a, σ =>
      match σ.get? a with
      | none => (none, σ)
      | some (.obj fields) =>
          match mapStore (fun kv σ' =>
              match substituteH results fuel kv.2 σ' with
              | (none, σ'') => (none, σ'')
              | (some w, σ'') => (some (kv.1, w), σ'')) fields σ with
          | (none, σ₁) => (none, σ₁)
          | (some fs, σ₁) => (some (.ref σ₁.length), σ₁ ++ [.obj fs])
      | some (.arr elems) =>
          match mapStore (substituteH results fuel) elems σ with
          | (none, σ₁) => (none, σ₁)
          | (some ws, σ₁) => (some (.ref σ₁.length), σ₁ ++ [.arr ws])

theorem mapStore_extends (f : α → Store → Option β × Store)
    (hf : ∀ x σ, ∃ ext, (f x σ).2 = σ ++ ext) :
    ∀ (l : List α) (σ : Store), ∃ ext, (mapStore f l σ).2 = σ ++ ext := by
  intro l
  induction l with
  | nil => intro σ; exact ⟨[], by simp [mapStore]⟩
  | cons x rest ih =>
      intro σ
      obtain ⟨e₁, he₁⟩ := hf x σ
      rcases hfx : f x σ with ⟨o, σ₁⟩
      rw [hfx] at he₁
      simp only at he₁
      cases o with
      | none =>
          refine ⟨e₁, ?_⟩
          simp only [mapStore, hfx]
          exact he₁
      | some y =>
          obtain ⟨e₂, he₂⟩ := ih σ₁
          rcases hrest : mapStore f rest σ₁ with ⟨o₂, σ₂⟩
          rw [hrest] at he₂
          simp only at he₂
          cases o₂ with
          | none =>
              refine ⟨e₁ ++ e₂, ?_⟩
              simp only [mapStore, hfx, hrest]
              rw [he₂, he₁, List.append_assoc]
          | some ys =>
              refine ⟨e₁ ++ e₂, ?_⟩
              simp only [mapStore, hfx, hrest]
              rw [he₂, he₁, List.append_assoc]

theorem substituteH_extends (results : List (String × HVal)) :
    ∀ (fuel : Nat) (v : HVal) (σ : Store),
      ∃ ext, (substituteH results fuel v σ).2 = σ ++ ext := by
  intro fuel
  induction fuel with
  | zero => intro v σ; exact ⟨[], by simp [substituteH]⟩
  | succ f ih =>
      intro v σ
      cases v with
      | null => exact ⟨[], by simp [substituteH]⟩
      | bool b => exact ⟨[], by simp [substituteH]⟩
      | num n => exact ⟨[], by simp [substituteH]⟩
      | str s =>
          by_cases hs : startsWithSigil s
          · exact ⟨[], by simp [substituteH, hs]⟩
          · exact ⟨[], by simp [substituteH, hs]⟩
      | ref a =>
          cases hget : σ.get? a with
          | none =>
              refine ⟨[], ?_⟩
              simp only [substituteH]
              rw [hget]
              simp
          | some node =>
              cases node with
              | obj fields =>
                  have hf : ∀ (kv : String × HVal) (σ' : Store), ∃ ext,
                      ((fun (kv : String × HVal) (σ' : Store) =>
                        match substituteH results f kv.2 σ' with
                        | (none, σ'') => (none, σ'')
                        | (some w, σ'') => (some (kv.1, w), σ'')) kv σ').2
                        = σ' ++ ext := by
                    intro kv σ'
                    obtain ⟨e, he⟩ := ih kv.2 σ'
                    rcases hsub : substituteH results f kv.2 σ' with ⟨o, σ''⟩
                    rw [hsub] at he
                    simp only at he
                    cases o with
                    | none => exact ⟨e, by simp only [hsub]; exact he⟩
                    | some w => exact ⟨e, by simp only [hsub]; exact he⟩
                  obtain ⟨e₁, he₁⟩ := mapStore_extends _ hf fields σ
                  rcases hmap : mapStore (fun (kv : String × HVal) (σ' : Store) =>
                      match substituteH results f kv.2 σ' with
                      | (none, σ'') => (none, σ'')
                      | (some w, σ'') => (some (kv.1, w), σ'')) fields σ with ⟨o, σ₁⟩
                  rw [hmap] at he₁
                  simp only at he₁
                  cases o with
                  | none =>
                      refine ⟨e₁, ?_⟩
                      simp only [substituteH]
                      rw [hget]
                      simp only [hmap]
                      exact he₁
                  | some fs =>
                      refine ⟨e₁ ++ [HNode.obj fs], ?_⟩
                      simp only [substituteH]
                      rw [hget]
                      simp only [hmap]
                      rw [he₁, List.append_assoc]
              | arr elems =>
                  obtain ⟨e₁, he₁⟩ := mapStore_extends _ (fun x σ' => ih x σ') elems σ
                  rcases hmap : mapStore (substituteH results f) elems σ with ⟨o, σ₁⟩
                  rw [hmap] at he₁
                  simp only at he₁
                  cases o with
                  | none =>
                      refine ⟨e₁, ?_⟩
                      simp only [substituteH]
                      rw [hget]
                      simp only [hmap]
                      exact he₁
                  | some ws =>
                      refine ⟨e₁ ++ [HNode.arr ws], ?_⟩
                      simp only [substituteH]
                      rw [hget]
                      simp only [hmap]
                      rw [he₁, List.append_assoc]

/-- Claim C9: the reference resolver is free of side effects on its input:
running `substituteH` only appends freshly allocated cells to the store, and
every cell that existed before the call — in particular every dict and list
of the input parameter tree and of the stored results — holds the identical
node afterwards. -/
theorem substituteH_no_mutation (results : List (String × HVal)) (fuel : Nat)
    (v : HVal) (σ : Store) :
    (∃ ext, (substituteH results fuel v σ).2 = σ ++ ext)
  ∧ ∀ a, a < σ.length → (substituteH results fuel v σ).2.get? a = σ.get? a := by
  obtain ⟨ext, hext⟩ := substituteH_extends results fuel v σ
  refine ⟨⟨ext, hext⟩, ?_⟩
  intro a ha
  rw [hext]
  exact List.get?_append ha

/-- Witness for C9: resolving a one-entry dict against an empty result map
leaves the input's cell untouched. -/
theorem substituteH_no_mutation_witness :
    (substituteH [] 3 (HVal.ref 0)
        [HNode.obj [("base", HVal.str "$step_0")]]).2.get? 0
      = some (HNode.obj [("base", HVal.str "$step_0")]) := by
  have h := substituteH_no_mutation [] 3 (HVal.ref 0)
      [HNode.obj [("base", HVal.str "$step_0")]]
  rw [h.2 0 (by decide)]
  rfl
